import Mathlib

/-
Verification of the `concurrent_stl` repository: a thread-safe
`concurrent::unordered_map` built from an ordinary hash map guarded by a
reader-writer lock.

The wrapped `std::unordered_map<Key, Value>` is modelled as an association
list with pairwise-distinct keys (`StdMap.WF`); its member functions
(`find`, `insert`, `operator[]`, `emplace`, `erase`, `clear`, `size`,
`empty`, `count`, `contains`) are modelled by structural recursion over that
list.  The two implementations of `concurrent::unordered_map` present in the
source are embedded separately:

* `Derived.unordered_map` — the version layered on
  `concurrent::internal::container_base`, whose every operation goes through
  `container_base.execute_shared` / `container_base.execute_exclusive`;
* `Standalone.unordered_map` — the self-contained version holding its own
  map and mutex, whose operations act on `_internal_map` directly.

Locks serialize the operations; sequential state is threaded explicitly, so
`execute_exclusive` takes a function returning the updated container and a
result.  The fine-grained concurrency model for the mutual-exclusion claim
lives in namespace `Conc`.
-/

set_option autoImplicit false

namespace ConcurrentSTL

namespace StdMap

variable {K V : Type} [DecidableEq K]

/-- Model of `std::unordered_map::find` followed by the dereference in the
source: scan for the key, returning a copy of the mapped value. -/
def lookup : List (K × V) → K → Option V
  | [], _ => none
  | (k', v) :: t, k => if k' = k then some v else lookup t k

/-- Model of `std::unordered_map::contains` (also `find != end`). -/
def containsKey : List (K × V) → K → Bool
  | [], _ => false
  | (k', _) :: t, k => if k' = k then true else containsKey t k

/-- Model of `std::unordered_map::count`: the number of stored entries whose
key equals `k` (0 or 1 once keys are pairwise distinct). -/
def countKey : List (K × V) → K → Nat
  | [], _ => 0
  | (k', _) :: t, k => (if k' = k then 1 else 0) + countKey t k

/-- Model of `std::unordered_map::insert(pair)` / `emplace`: insert the pair
only if the key is absent; the `Bool` is the `.second` of the result, true
iff insertion took place. -/
def insertPair (m : List (K × V)) (p : K × V) : List (K × V) × Bool :=
  if containsKey m p.1 then (m, false) else (m ++ [p], true)

/-- Model of `m[key] = value`: assign through `operator[]`, overwriting the
mapped value if the key is present and appending a fresh entry otherwise. -/
def assign : List (K × V) → K → V → List (K × V)
  | [], k, v => [(k, v)]
  | (k', v') :: t, k, v => if k' = k then (k, v) :: t else (k', v') :: assign t k v

/-- Model of `std::unordered_map::erase(key)`: remove the entries with the
given key, returning the new contents and the number of removed entries. -/
def erase : List (K × V) → K → List (K × V) × Nat
  | [], _ => ([], 0)
  | (k', v) :: t, k =>
    let r := erase t k
    if k' = k then (r.1, r.2 + 1) else ((k', v) :: r.1, r.2)

/-- Invariant of `std::unordered_map` contents: keys are pairwise distinct. -/
def WF (m : List (K × V)) : Prop := (m.map Prod.fst).Nodup

instance (m : List (K × V)) : Decidable (WF m) := by
  unfold WF; infer_instance

end StdMap

namespace Internal

/-- Embedding of `concurrent::internal::container_base<ContainerT, MutexT>`:
it owns the wrapped container; the mutex serializes operations, so in this
sequential embedding only the container state remains. -/
structure container_base (C : Type) where
  _internal_container : C

namespace container_base

variable {C α : Type}

/-- `execute_shared`: run a read-only operation on the wrapped container
under the shared lock and return its result. -/
def execute_shared (b : container_base C) (f : C → α) : α :=
  f b._internal_container

/-- `execute_exclusive`: run a read-write operation on the wrapped container
under the exclusive lock; the callable's mutation is modelled by returning
the updated container together with the result. -/
def execute_exclusive (b : container_base C) (f : C → C × α) :
    container_base C × α :=
  let r := f b._internal_container
  (⟨r.1⟩, r.2)

/-- `container_base::size`, implemented with `execute_shared`, instantiated
at the map container used by `concurrent::unordered_map`. -/
def size {K V : Type} (b : container_base (List (K × V))) : Nat :=
  b.execute_shared (fun c => c.length)

/-- `container_base::empty`, implemented with `execute_shared`. -/
def empty {K V : Type} (b : container_base (List (K × V))) : Bool :=
  b.execute_shared (fun c => c.isEmpty)

end container_base

end Internal

namespace Derived

open Internal

/-- Embedding of the `concurrent::unordered_map` that derives from
`internal::container_base` (first version in the header): all state lives in
the inherited base. -/
structure unordered_map (K V : Type) where
  base : container_base (List (K × V))

variable {K V : Type} [DecidableEq K]

/-- Contents of the wrapped `std::unordered_map`. -/
def unordered_map.entries (m : unordered_map K V) : List (K × V) :=
  m.base._internal_container

/-- `bool insert(P&& obj)` — the pair overload: defer to the base's
`execute_exclusive`, calling `m.insert(obj)` and returning `.second`. -/
def insert_pair (m : unordered_map K V) (p : K × V) :
    unordered_map K V × Bool :=
  let r := m.base.execute_exclusive (fun mm => StdMap.insertPair mm p)
  (⟨r.1⟩, r.2)

/-- `void insert(const Key&, const Value&)` — the copying two-argument
overload: `m[key] = value` under `execute_exclusive`. -/
def insert_copy (m : unordered_map K V) (k : K) (v : V) : unordered_map K V :=
  let r := m.base.execute_exclusive (fun mm => (StdMap.assign mm k v, ()))
  ⟨r.1⟩

/-- `void insert(Key&&, Value&&)` — the moving two-argument overload:
`m[std::move(key)] = std::move(value)` under `execute_exclusive`; in the
value semantics of the embedding move and copy coincide. -/
def insert_move (m : unordered_map K V) (k : K) (v : V) : unordered_map K V :=
  let r := m.base.execute_exclusive (fun mm => (StdMap.assign mm k v, ()))
  ⟨r.1⟩

/-- `std::optional<Value> find(const Key&) const` via `execute_shared`. -/
def find (m : unordered_map K V) (k : K) : Option V :=
  m.base.execute_shared (fun mm => StdMap.lookup mm k)

/-- `bool emplace(Args&&...)`: the arguments construct the pair `(k, v)` in
place; defer to `execute_exclusive`, returning `.second` of `m.emplace`. -/
def emplace (m : unordered_map K V) (k : K) (v : V) :
    unordered_map K V × Bool :=
  let r := m.base.execute_exclusive (fun mm => StdMap.insertPair mm (k, v))
  (⟨r.1⟩, r.2)

/-- `size_t erase(const Key&)` via `execute_exclusive`. -/
def erase (m : unordered_map K V) (k : K) : unordered_map K V × Nat :=
  let r := m.base.execute_exclusive (fun mm => StdMap.erase mm k)
  (⟨r.1⟩, r.2)

/-- `void clear()` via `execute_exclusive`. -/
def clear (m : unordered_map K V) : unordered_map K V :=
  let r := m.base.execute_exclusive (fun _ => (([] : List (K × V)), ()))
  ⟨r.1⟩

/-- `size()` — inherited from `container_base`. -/
def size (m : unordered_map K V) : Nat :=
  m.base.size

/-- `empty()` — inherited from `container_base`. -/
def empty (m : unordered_map K V) : Bool :=
  m.base.empty

/-- `size_t count(const Key&) const` via `execute_shared`. -/
def count (m : unordered_map K V) (k : K) : Nat :=
  m.base.execute_shared (fun mm => StdMap.countKey mm k)

/-- `bool contains(const Key&) const` via `execute_shared`. -/
def contains (m : unordered_map K V) (k : K) : Bool :=
  m.base.execute_shared (fun mm => StdMap.containsKey mm k)

/-- `std::vector<std::pair<Key, Value>> snapshot() const`: under the shared
lock, push a copy of every entry onto a fresh vector and return it. -/
def snapshot (m : unordered_map K V) : List (K × V) :=
  m.base.execute_shared (fun mm => mm.foldl (fun d p => d ++ [p]) [])

/-- `execute_shared` — inherited and re-exposed. -/
def execute_shared {α : Type} (m : unordered_map K V)
    (f : List (K × V) → α) : α :=
  m.base.execute_shared f

/-- `execute_exclusive` — inherited and re-exposed. -/
def execute_exclusive {α : Type} (m : unordered_map K V)
    (f : List (K × V) → List (K × V) × α) : unordered_map K V × α :=
  let r := m.base.execute_exclusive f
  (⟨r.1⟩, r.2)

end Derived

namespace Standalone

/-- Embedding of the standalone `concurrent::unordered_map` (second version
in the header): it holds `_internal_map` and its own mutex directly. -/
structure unordered_map (K V : Type) where
  _internal_map : List (K × V)

variable {K V : Type} [DecidableEq K]

/-- `bool insert(P&& obj)`: under a `unique_lock`, return
`_internal_map.insert(obj).second`. -/
def insert_pair (m : unordered_map K V) (p : K × V) :
    unordered_map K V × Bool :=
  let r := StdMap.insertPair m._internal_map p
  (⟨r.1⟩, r.2)

/-- `void insert(const Key&, const Value&)`: `_internal_map[key] = value`
under a `unique_lock`. -/
def insert_copy (m : unordered_map K V) (k : K) (v : V) : unordered_map K V :=
  ⟨StdMap.assign m._internal_map k v⟩

/-- `void insert(Key&&, Value&&)`: the move overload of the same
assignment. -/
def insert_move (m : unordered_map K V) (k : K) (v : V) : unordered_map K V :=
  ⟨StdMap.assign m._internal_map k v⟩

/-- `std::optional<Value> find(const Key&) const` under a `shared_lock`. -/
def find (m : unordered_map K V) (k : K) : Option V :=
  StdMap.lookup m._internal_map k

/-- `bool emplace(Args&&...)` under a `unique_lock`. -/
def emplace (m : unordered_map K V) (k : K) (v : V) :
    unordered_map K V × Bool :=
  let r := StdMap.insertPair m._internal_map (k, v)
  (⟨r.1⟩, r.2)

/-- `size_type erase(const Key&)` under a `unique_lock`. -/
def erase (m : unordered_map K V) (k : K) : unordered_map K V × Nat :=
  let r := StdMap.erase m._internal_map k
  (⟨r.1⟩, r.2)

/-- `void clear()` under a `unique_lock`. -/
def clear (_ : unordered_map K V) : unordered_map K V :=
  ⟨[]⟩

/-- `size_type size() const` under a `shared_lock`. -/
def size (m : unordered_map K V) : Nat :=
  m._internal_map.length

/-- `bool empty() const` under a `shared_lock`. -/
def empty (m : unordered_map K V) : Bool :=
  m._internal_map.isEmpty

/-- `size_type count(const Key&) const` under a `shared_lock`. -/
def count (m : unordered_map K V) (k : K) : Nat :=
  StdMap.countKey m._internal_map k

/-- `bool contains(const Key&) const` under a `shared_lock`. -/
def contains (m : unordered_map K V) (k : K) : Bool :=
  StdMap.containsKey m._internal_map k

/-- `snapshot()`: copy every entry into a fresh vector under a
`shared_lock`. -/
def snapshot (m : unordered_map K V) : List (K × V) :=
  m._internal_map.foldl (fun d p => d ++ [p]) []

/-- `execute_shared(func)`: run `func` on `_internal_map` under a
`shared_lock`. -/
def execute_shared {α : Type} (m : unordered_map K V)
    (f : List (K × V) → α) : α :=
  f m._internal_map

/-- `execute_exclusive(func)`: run `func` on `_internal_map` under a
`unique_lock`. -/
def execute_exclusive {α : Type} (m : unordered_map K V)
    (f : List (K × V) → List (K × V) × α) : unordered_map K V × α :=
  let r := f m._internal_map
  (⟨r.1⟩, r.2)

end Standalone

namespace Ops

/-- The public operations of `concurrent::unordered_map` as an operation
language, used to speak about sequences of calls made after a given call
(`fnd` is the read-only `find`, included because reads may also be
interleaved). -/
inductive MapOp (K V : Type) where
  | ins_assign (k : K) (v : V)
  | ins_pair (k : K) (v : V)
  | empl (k : K) (v : V)
  | ers (k : K)
  | clr
  | fnd (k : K)
deriving DecidableEq

/-- Whether an operation writes to key `k`: the two-argument insert
overloads with that key, `insert(pair)` with that key, `emplace` with that
key, `erase` of that key, or `clear`. -/
def MapOp.writesKey {K V : Type} [DecidableEq K] : MapOp K V → K → Bool
  | .ins_assign k' _, k => k' = k
  | .ins_pair k' _, k => k' = k
  | .empl k' _, k => k' = k
  | .ers k', k => k' = k
  | .clr, _ => true
  | .fnd _, _ => false

/-- State effect of each operation on the container-base version of the
map (results are discarded; `find` leaves the state untouched). -/
def applyOp {K V : Type} [DecidableEq K] (m : Derived.unordered_map K V) :
    MapOp K V → Derived.unordered_map K V
  | .ins_assign k v => Derived.insert_copy m k v
  | .ins_pair k v => (Derived.insert_pair m (k, v)).1
  | .empl k v => (Derived.emplace m k v).1
  | .ers k => (Derived.erase m k).1
  | .clr => Derived.clear m
  | .fnd _ => m

/-- Run a sequence of operations in order. -/
def applyOps {K V : Type} [DecidableEq K] (m : Derived.unordered_map K V)
    (ops : List (MapOp K V)) : Derived.unordered_map K V :=
  ops.foldl applyOp m

end Ops

namespace Conc

/-- State of the `std::shared_mutex` protecting one map instance: free,
held by `n + 1` readers, or held exclusively by one thread. -/
inductive LockSt where
  | free
  | shared (n : Nat)
  | excl (tid : Nat)
deriving DecidableEq

/-- The exclusive (write) operations of `concurrent::unordered_map`, every
one of which runs under the exclusive lock: the two-argument insert
overloads (`m[k] = v`), the pair insert and `emplace`
(insert-if-absent), `erase`, `clear`, and an arbitrary caller-supplied
`execute_exclusive` callback. -/
inductive WOp (K V : Type) where
  | ins_assign (k : K) (v : V)
  | ins_pair (k : K) (v : V)
  | empl (k : K) (v : V)
  | ers (k : K)
  | clr
  | exec (f : List (K × V) → List (K × V))

variable {K V : Type} [DecidableEq K]

/-- Effect of one exclusive operation executed in isolation on the wrapped
map — the serial (one-at-a-time) reference semantics. -/
def applyW (m : List (K × V)) : WOp K V → List (K × V)
  | .ins_assign k v => StdMap.assign m k v
  | .ins_pair k v => (StdMap.insertPair m (k, v)).1
  | .empl k v => (StdMap.insertPair m (k, v)).1
  | .ers k => (StdMap.erase m k).1
  | .clr => []
  | .exec f => f m

/-- Fine-grained events of threads operating on one shared map instance.
An exclusive operation is not atomic inside its critical section: it has a
read phase (`obs`), in which the thread computes the operation's outcome
from the map state it currently observes, and a write phase (`commit`), in
which that precomputed outcome is installed.  Without mutual exclusion a
commit could install an outcome computed from a stale observation — the
classic lost update.  The lock events model `std::unique_lock` /
`std::shared_lock` acquisition and release on the `std::shared_mutex`. -/
inductive Event (K V : Type) where
  | acqX (tid : Nat)
  | obs (tid : Nat) (op : WOp K V)
  | commit (tid : Nat)
  | relX (tid : Nat)
  | acqS (tid : Nat)
  | readK (tid : Nat) (k : K)
  | relS (tid : Nat)

/-- Global state: the lock, the protected map contents, the pending
observation (thread, operation, precomputed outcome) of the thread
currently inside an exclusive critical section, the log of committed
exclusive operations in commit order, and the log of values returned by
shared reads. -/
structure Sys (K V : Type) where
  lock : LockSt
  map : List (K × V)
  pend : Option (Nat × WOp K V × List (K × V))
  log : List (WOp K V)
  reads : List (Nat × K × Option V)

/-- One step of the interleaved semantics; `none` means the event is not
enabled (its thread would block, or the event is a protocol violation). -/
def step (s : Sys K V) : Event K V → Option (Sys K V)
  | .acqX t => if s.lock = LockSt.free then some { s with lock := LockSt.excl t } else none
  | .obs t op =>
    if s.lock = LockSt.excl t then
      match s.pend with
      | none => some { s with pend := some (t, op, applyW s.map op) }
      | some _ => none
    else none
  | .commit t =>
    if s.lock = LockSt.excl t then
      match s.pend with
      | some (t', op, mw) =>
        if t' = t then
          some { s with map := mw, pend := none, log := s.log ++ [op] }
        else none
      | none => none
    else none
  | .relX t =>
    if s.lock = LockSt.excl t then
      match s.pend with
      | none => some { s with lock := LockSt.free }
      | some _ => none
    else none
  | .acqS _ =>
    match s.lock with
    | LockSt.free => some { s with lock := LockSt.shared 1 }
    | LockSt.shared n => some { s with lock := LockSt.shared (n + 1) }
    | LockSt.excl _ => none
  | .readK t k =>
    match s.lock with
    | LockSt.shared _ =>
      some { s with reads := s.reads ++ [(t, k, StdMap.lookup s.map k)] }
    | _ => none
  | .relS _ =>
    match s.lock with
    | LockSt.shared 1 => some { s with lock := LockSt.free }
    | LockSt.shared (n + 2) => some { s with lock := LockSt.shared (n + 1) }
    | _ => none

/-- Run a whole trace of events; `none` if any event is not enabled. -/
def run (s : Sys K V) : List (Event K V) → Option (Sys K V)
  | [] => some s
  | e :: es =>
    match step s e with
    | some s' => run s' es
    | none => none

/-- Number of commit events in a trace: each one finishes exactly one
exclusive critical section. -/
def commitCount : List (Event K V) → Nat
  | [] => 0
  | Event.commit _ :: es => commitCount es + 1
  | _ :: es => commitCount es

/-- Serial (one-at-a-time) execution of a sequence of exclusive
operations. -/
def serialRun (m : List (K × V)) : List (WOp K V) → List (K × V)
  | [] => m
  | op :: ops => serialRun (applyW m op) ops

/-- The initial system state for given map contents: lock free, no pending
observation, nothing committed, no reads logged. -/
def init (m : List (K × V)) : Sys K V :=
  { lock := LockSt.free, map := m, pend := none, log := [], reads := [] }

/-- Invariant tied to lock ownership: a pending observation belongs to the
thread holding the exclusive lock, and — because no other thread can touch
the map while that lock is held — its precomputed outcome is still the
outcome the operation has on the current map. -/
def Inv (s : Sys K V) : Prop :=
  ∀ t op mw, s.pend = some (t, op, mw) →
    s.lock = LockSt.excl t ∧ mw = applyW s.map op

end Conc

namespace StdMap

variable {K V : Type} [DecidableEq K]

theorem containsKey_eq_isSome_lookup (m : List (K × V)) (k : K) :
    containsKey m k = (lookup m k).isSome := by
  induction m with
  | nil => rfl
  | cons p t ih =>
    obtain ⟨k', v⟩ := p
    by_cases h : k' = k <;> simp [containsKey, lookup, h, ih]

theorem containsKey_iff_mem_keys (m : List (K × V)) (k : K) :
    containsKey m k = true ↔ k ∈ m.map Prod.fst := by
  induction m with
  | nil => simp [containsKey]
  | cons p t ih =>
    obtain ⟨k', v⟩ := p
    by_cases h : k' = k
    · subst h; simp [containsKey]
    · have h' : ¬ k = k' := fun hh => h hh.symm
      simp [containsKey, h, h', ih]

theorem lookup_append (m l : List (K × V)) (k : K) :
    lookup (m ++ l) k = ((lookup m k).or (lookup l k)) := by
  induction m with
  | nil => simp [lookup]
  | cons p t ih =>
    obtain ⟨k', v⟩ := p
    by_cases h : k' = k <;> simp [lookup, h, ih]

theorem lookup_assign_self (m : List (K × V)) (k : K) (v : V) :
    lookup (assign m k v) k = some v := by
  induction m with
  | nil => simp [assign, lookup]
  | cons p t ih =>
    obtain ⟨k', v'⟩ := p
    by_cases h : k' = k <;> simp [assign, lookup, h, ih]

theorem lookup_assign_ne (m : List (K × V)) (k k' : K) (v : V) (h : k ≠ k') :
    lookup (assign m k v) k' = lookup m k' := by
  induction m with
  | nil => simp [assign, lookup, h]
  | cons p t ih =>
    obtain ⟨k₀, v₀⟩ := p
    by_cases h₀ : k₀ = k
    · subst h₀; simp [assign, lookup, h]
    · simp [assign, lookup, h₀, ih]

theorem lookup_erase_self (m : List (K × V)) (k : K) :
    lookup (erase m k).1 k = none := by
  induction m with
  | nil => simp [erase, lookup]
  | cons p t ih =>
    obtain ⟨k', v⟩ := p
    by_cases h : k' = k <;> simp [erase, lookup, h, ih]

theorem lookup_erase_ne (m : List (K × V)) (k k' : K) (h : k ≠ k') :
    lookup (erase m k).1 k' = lookup m k' := by
  induction m with
  | nil => simp [erase, lookup]
  | cons p t ih =>
    obtain ⟨k₀, v⟩ := p
    by_cases h₀ : k₀ = k
    · subst h₀; simp [erase, lookup, h, ih]
    · simp [erase, lookup, h₀, ih]

theorem erase_count (m : List (K × V)) (k : K) :
    (erase m k).2 = countKey m k := by
  induction m with
  | nil => rfl
  | cons p t ih =>
    obtain ⟨k', v⟩ := p
    by_cases h : k' = k <;> simp [erase, countKey, h, ih, Nat.add_comm]

theorem erase_length (m : List (K × V)) (k : K) :
    (erase m k).1.length + (erase m k).2 = m.length := by
  induction m with
  | nil => rfl
  | cons p t ih =>
    obtain ⟨k', v⟩ := p
    by_cases h : k' = k
    · simp only [erase, h, if_true, List.length_cons]
      omega
    · simp only [erase, h, if_false, List.length_cons]
      omega

theorem erase_of_not_contains (m : List (K × V)) (k : K)
    (h : containsKey m k = false) : erase m k = (m, 0) := by
  induction m with
  | nil => rfl
  | cons p t ih =>
    obtain ⟨k', v⟩ := p
    by_cases h₀ : k' = k
    · simp [containsKey, h₀] at h
    · simp [containsKey, h₀] at h
      simp [erase, h₀, ih h]

theorem erase_idem (m : List (K × V)) (k : K) :
    (erase (erase m k).1 k).1 = (erase m k).1 := by
  induction m with
  | nil => rfl
  | cons p t ih =>
    obtain ⟨k', v⟩ := p
    by_cases h : k' = k <;> simp [erase, h, ih]

theorem erase_sublist (m : List (K × V)) (k : K) :
    List.Sublist (erase m k).1 m := by
  induction m with
  | nil => simp [erase]
  | cons p t ih =>
    obtain ⟨k', v⟩ := p
    by_cases h : k' = k
    · simp only [erase, h, if_true]
      exact ih.cons _
    · simp only [erase, h, if_false]
      exact ih.cons₂ _

theorem assign_length (m : List (K × V)) (k : K) (v : V) :
    (assign m k v).length = if containsKey m k then m.length else m.length + 1 := by
  induction m with
  | nil => simp [assign, containsKey]
  | cons p t ih =>
    obtain ⟨k', v'⟩ := p
    by_cases h : k' = k
    · simp [assign, containsKey, h]
    · simp only [assign, containsKey, h, if_false, List.length_cons, ih]
      split <;> simp

theorem keys_assign (m : List (K × V)) (k : K) (v : V) :
    (assign m k v).map Prod.fst =
      if containsKey m k then m.map Prod.fst else m.map Prod.fst ++ [k] := by
  induction m with
  | nil => simp [assign, containsKey]
  | cons p t ih =>
    obtain ⟨k', v'⟩ := p
    by_cases h : k' = k
    · simp [assign, containsKey, h]
    · simp only [assign, containsKey, h, if_false, List.map_cons, ih]
      split <;> simp

theorem countKey_eq_zero_of_not_mem (t : List (K × V)) (k : K)
    (h : ∀ x ∈ t, x.1 ≠ k) : countKey t k = 0 := by
  induction t with
  | nil => rfl
  | cons q s ih =>
    obtain ⟨kq, vq⟩ := q
    have h1 : kq ≠ k := h (kq, vq) (List.mem_cons_self _ _)
    simp [countKey, h1, ih (fun x hx => h x (List.mem_cons_of_mem _ hx))]

theorem countKey_le_one_of_wf (m : List (K × V)) (k : K) (h : WF m) :
    countKey m k ≤ 1 := by
  induction m with
  | nil => simp [countKey]
  | cons p t ih =>
    obtain ⟨k', v⟩ := p
    have hc : k' ∉ t.map Prod.fst ∧ (t.map Prod.fst).Nodup := List.nodup_cons.mp h
    by_cases h₀ : k' = k
    · subst h₀
      have hz : countKey t k' = 0 := by
        apply countKey_eq_zero_of_not_mem
        intro x hx hk
        have hmem : x.1 ∈ t.map Prod.fst := List.mem_map_of_mem Prod.fst hx
        rw [hk] at hmem
        exact hc.1 hmem
      simp [countKey, hz]
    · simp only [countKey, h₀, if_false, Nat.zero_add]
      exact ih hc.2

theorem countKey_eq_of_wf (m : List (K × V)) (k : K) (h : WF m) :
    countKey m k = if containsKey m k then 1 else 0 := by
  induction m with
  | nil => simp [countKey, containsKey]
  | cons p t ih =>
    obtain ⟨k', v⟩ := p
    have hc : k' ∉ t.map Prod.fst ∧ (t.map Prod.fst).Nodup := List.nodup_cons.mp h
    by_cases h₀ : k' = k
    · subst h₀
      have hz : countKey ((k', v) :: t) k' = 1 + countKey t k' := by simp [countKey]
      have hle := countKey_le_one_of_wf ((k', v) :: t) k' h
      rw [hz] at hle
      have ht0 : countKey t k' = 0 := by omega
      simp [containsKey, hz, ht0]
    · simp [countKey, containsKey, h₀, ih hc.2]

theorem assign_of_not_contains (m : List (K × V)) (k : K) (v : V)
    (h : containsKey m k = false) : assign m k v = m ++ [(k, v)] := by
  induction m with
  | nil => simp [assign]
  | cons p t ih =>
    obtain ⟨k', v'⟩ := p
    by_cases h₀ : k' = k
    · simp [containsKey, h₀] at h
    · simp [containsKey, h₀] at h
      simp [assign, h₀, ih h]

theorem wf_assign (m : List (K × V)) (k : K) (v : V) (h : WF m) :
    WF (assign m k v) := by
  unfold WF at h ⊢
  rw [keys_assign]
  by_cases hc : containsKey m k = true
  · simp only [hc, if_true]
    exact h
  · simp only [hc, if_false]
    refine List.Nodup.append h (by simp) ?_
    intro a ha hb
    simp only [List.mem_singleton] at hb
    subst hb
    exact hc ((containsKey_iff_mem_keys m a).mpr ha)

theorem wf_append_single (m : List (K × V)) (k : K) (v : V)
    (h : WF m) (hc : containsKey m k = false) : WF (m ++ [(k, v)]) := by
  unfold WF at h ⊢
  rw [List.map_append]
  refine List.Nodup.append h (by simp) ?_
  intro a ha hb
  simp only [List.map_cons, List.map_nil, List.mem_singleton] at hb
  subst hb
  have := (containsKey_iff_mem_keys m a).mpr ha
  rw [hc] at this
  exact Bool.false_ne_true this

theorem wf_erase (m : List (K × V)) (k : K) (h : WF m) :
    WF (erase m k).1 := by
  unfold WF at h ⊢
  exact List.Nodup.sublist (List.Sublist.map Prod.fst (erase_sublist m k)) h

theorem wf_insertPair (m : List (K × V)) (p : K × V) (h : WF m) :
    WF (insertPair m p).1 := by
  unfold insertPair
  by_cases hc : containsKey m p.1 = true
  · simpa [hc]
  · simp only [hc, if_false]
    exact wf_append_single m p.1 p.2 h (by simpa using hc)

end StdMap

namespace StdMap

theorem foldl_push {K V : Type} (m : List (K × V)) (d : List (K × V)) :
    m.foldl (fun acc p => acc ++ [p]) d = d ++ m := by
  induction m generalizing d with
  | nil => simp
  | cons p t ih => simp [List.foldl_cons, ih]

end StdMap

namespace Derived

variable {K V : Type} [DecidableEq K]

omit [DecidableEq K] in
theorem unordered_map.eq_of_entries {m₁ m₂ : unordered_map K V}
    (h : m₁.entries = m₂.entries) : m₁ = m₂ := by
  obtain ⟨⟨a⟩⟩ := m₁
  obtain ⟨⟨b⟩⟩ := m₂
  cases h
  rfl

theorem insert_pair_entries (m : unordered_map K V) (p : K × V) :
    (insert_pair m p).1.entries = (StdMap.insertPair m.entries p).1 := rfl

theorem insert_pair_ret (m : unordered_map K V) (p : K × V) :
    (insert_pair m p).2 = (StdMap.insertPair m.entries p).2 := rfl

theorem insert_copy_entries (m : unordered_map K V) (k : K) (v : V) :
    (insert_copy m k v).entries = StdMap.assign m.entries k v := rfl

theorem insert_move_entries (m : unordered_map K V) (k : K) (v : V) :
    (insert_move m k v).entries = StdMap.assign m.entries k v := rfl

theorem find_eq (m : unordered_map K V) (k : K) :
    find m k = StdMap.lookup m.entries k := rfl

theorem emplace_entries (m : unordered_map K V) (k : K) (v : V) :
    (emplace m k v).1.entries = (StdMap.insertPair m.entries (k, v)).1 := rfl

theorem emplace_ret (m : unordered_map K V) (k : K) (v : V) :
    (emplace m k v).2 = (StdMap.insertPair m.entries (k, v)).2 := rfl

theorem erase_entries (m : unordered_map K V) (k : K) :
    (erase m k).1.entries = (StdMap.erase m.entries k).1 := rfl

theorem erase_ret (m : unordered_map K V) (k : K) :
    (erase m k).2 = (StdMap.erase m.entries k).2 := rfl

omit [DecidableEq K] in
theorem clear_entries (m : unordered_map K V) :
    (clear m).entries = [] := rfl

omit [DecidableEq K] in
theorem size_eq (m : unordered_map K V) :
    size m = m.entries.length := rfl

omit [DecidableEq K] in
theorem empty_eq (m : unordered_map K V) :
    empty m = m.entries.isEmpty := rfl

theorem count_eq (m : unordered_map K V) (k : K) :
    count m k = StdMap.countKey m.entries k := rfl

theorem contains_eq (m : unordered_map K V) (k : K) :
    contains m k = StdMap.containsKey m.entries k := rfl

omit [DecidableEq K] in
theorem snapshot_eq (m : unordered_map K V) :
    snapshot m = m.entries := by
  show m.entries.foldl (fun d p => d ++ [p]) [] = m.entries
  rw [StdMap.foldl_push]
  simp

end Derived

namespace Conc

variable {K V : Type} [DecidableEq K]

theorem inv_step {s s' : Sys K V} {e : Event K V}
    (hInv : Inv s) (h : step s e = some s') : Inv s' := by
  cases e with
  | acqX t =>
    simp only [step] at h
    split at h
    · cases h
      intro t' op' mw' hp
      rcases hInv t' op' mw' hp with ⟨hl, _⟩
      simp_all
    · cases h
  | obs t op =>
    simp only [step] at h
    split at h
    · split at h
      · cases h
        intro t' op' mw' hp
        simp only [Option.some.injEq, Prod.mk.injEq] at hp
        obtain ⟨ht, hop, hmw⟩ := hp
        subst ht
        subst hop
        subst hmw
        exact ⟨by assumption, rfl⟩
      · cases h
    · cases h
  | commit t =>
    simp only [step] at h
    split at h
    · split at h
      · split at h
        · cases h
          intro t' op' mw' hp
          simp_all
        · cases h
      · cases h
    · cases h
  | relX t =>
    simp only [step] at h
    split at h
    · split at h
      · cases h
        intro t' op' mw' hp
        simp_all
      · cases h
    · cases h
  | acqS t =>
    simp only [step] at h
    split at h
    · cases h
      intro t' op' mw' hp
      rcases hInv t' op' mw' hp with ⟨hl, _⟩
      simp_all
    · cases h
      intro t' op' mw' hp
      rcases hInv t' op' mw' hp with ⟨hl, _⟩
      simp_all
    · cases h
  | readK t k =>
    simp only [step] at h
    split at h
    · cases h
      intro t' op' mw' hp
      rcases hInv t' op' mw' hp with ⟨hl, _⟩
      simp_all
    · cases h
  | relS t =>
    simp only [step] at h
    split at h
    · cases h
      intro t' op' mw' hp
      rcases hInv t' op' mw' hp with ⟨hl, _⟩
      simp_all
    · cases h
      intro t' op' mw' hp
      rcases hInv t' op' mw' hp with ⟨hl, _⟩
      simp_all
    · cases h

theorem serialRun_append (m : List (K × V)) (l₁ l₂ : List (WOp K V)) :
    serialRun m (l₁ ++ l₂) = serialRun (serialRun m l₁) l₂ := by
  induction l₁ generalizing m with
  | nil => simp [serialRun]
  | cons op t ih => simp [serialRun, ih]

theorem map_serial_step {m₀ : List (K × V)} {s s' : Sys K V} {e : Event K V}
    (hInv : Inv s) (hmap : s.map = serialRun m₀ s.log)
    (h : step s e = some s') : s'.map = serialRun m₀ s'.log := by
  cases e with
  | acqX t =>
    simp only [step] at h
    split at h
    · cases h; exact hmap
    · cases h
  | obs t op =>
    simp only [step] at h
    split at h
    · split at h
      · cases h; exact hmap
      · cases h
    · cases h
  | commit t =>
    simp only [step] at h
    split at h
    · split at h
      · rename_i t' op mw heq
        split at h
        · cases h
          obtain ⟨-, hmw⟩ := hInv t' op mw heq
          show mw = serialRun m₀ (s.log ++ [op])
          rw [hmw, hmap, serialRun_append]
          simp [serialRun]
        · cases h
      · cases h
    · cases h
  | relX t =>
    simp only [step] at h
    split at h
    · split at h
      · cases h; exact hmap
      · cases h
    · cases h
  | acqS t =>
    simp only [step] at h
    split at h
    · cases h; exact hmap
    · cases h; exact hmap
    · cases h
  | readK t k =>
    simp only [step] at h
    split at h
    · cases h; exact hmap
    · cases h
  | relS t =>
    simp only [step] at h
    split at h
    · cases h; exact hmap
    · cases h; exact hmap
    · cases h

theorem log_step {s s' : Sys K V} {e : Event K V}
    (h : step s e = some s') :
    s'.log.length = s.log.length + commitCount [e] := by
  cases e with
  | acqX t =>
    simp only [step] at h
    split at h
    · cases h; simp [commitCount]
    · cases h
  | obs t op =>
    simp only [step] at h
    split at h
    · split at h
      · cases h; simp [commitCount]
      · cases h
    · cases h
  | commit t =>
    simp only [step] at h
    split at h
    · split at h
      · split at h
        · cases h; simp [commitCount]
        · cases h
      · cases h
    · cases h
  | relX t =>
    simp only [step] at h
    split at h
    · split at h
      · cases h; simp [commitCount]
      · cases h
    · cases h
  | acqS t =>
    simp only [step] at h
    split at h
    · cases h; simp [commitCount]
    · cases h; simp [commitCount]
    · cases h
  | readK t k =>
    simp only [step] at h
    split at h
    · cases h; simp [commitCount]
    · cases h
  | relS t =>
    simp only [step] at h
    split at h
    · cases h; simp [commitCount]
    · cases h; simp [commitCount]
    · cases h

omit [DecidableEq K] in
theorem commitCount_cons (e : Event K V) (es : List (Event K V)) :
    commitCount (e :: es) = commitCount [e] + commitCount es := by
  cases e <;> simp [commitCount, Nat.add_comm]


theorem run_serializes {m₀ : List (K × V)} {s s' : Sys K V}
    {es : List (Event K V)}
    (hInv : Inv s) (hmap : s.map = serialRun m₀ s.log)
    (h : run s es = some s') :
    s'.map = serialRun m₀ s'.log ∧
    s'.log.length = s.log.length + commitCount es := by
  induction es generalizing s with
  | nil =>
    simp only [run] at h
    cases h
    exact ⟨hmap, by simp [commitCount]⟩
  | cons e rest ih =>
    simp only [run] at h
    split at h
    · rename_i s₁ hstep
      obtain ⟨ha, hb⟩ :=
        ih (inv_step hInv hstep) (map_serial_step hInv hmap hstep) h
      refine ⟨ha, ?_⟩
      have hls := log_step hstep
      have hcc := commitCount_cons e rest
      omega
    · cases h

end Conc

namespace StdMap

variable {K V : Type} [DecidableEq K]

theorem insertPair_ret_eq (m : List (K × V)) (p : K × V) :
    (insertPair m p).2 = !(containsKey m p.1) := by
  unfold insertPair
  split <;> simp_all

theorem insertPair_length (m : List (K × V)) (p : K × V) :
    (insertPair m p).1.length =
      if containsKey m p.1 then m.length else m.length + 1 := by
  unfold insertPair
  split <;> simp_all

end StdMap

namespace Ops

variable {K V : Type} [DecidableEq K]

theorem find_applyOp_of_not_writes (m : Derived.unordered_map K V)
    (op : MapOp K V) (k : K) (h : op.writesKey k = false) :
    Derived.find (applyOp m op) k = Derived.find m k := by
  cases op with
  | ins_assign k' v =>
    simp only [MapOp.writesKey, decide_eq_false_iff_not] at h
    simp only [applyOp, Derived.find_eq, Derived.insert_copy_entries]
    exact StdMap.lookup_assign_ne m.entries k' k v h
  | ins_pair k' v =>
    simp only [MapOp.writesKey, decide_eq_false_iff_not] at h
    simp only [applyOp, Derived.find_eq, Derived.insert_pair_entries,
      StdMap.insertPair]
    by_cases hc : StdMap.containsKey m.entries k' = true
    · simp [hc]
    · simp only [Bool.not_eq_true] at hc
      simp [hc, StdMap.lookup_append, StdMap.lookup, h]
  | empl k' v =>
    simp only [MapOp.writesKey, decide_eq_false_iff_not] at h
    simp only [applyOp, Derived.find_eq, Derived.emplace_entries,
      StdMap.insertPair]
    by_cases hc : StdMap.containsKey m.entries k' = true
    · simp [hc]
    · simp only [Bool.not_eq_true] at hc
      simp [hc, StdMap.lookup_append, StdMap.lookup, h]
  | ers k' =>
    simp only [MapOp.writesKey, decide_eq_false_iff_not] at h
    simp only [applyOp, Derived.find_eq, Derived.erase_entries]
    exact StdMap.lookup_erase_ne m.entries k' k h
  | clr => simp [MapOp.writesKey] at h
  | fnd _ => rfl

theorem find_applyOps_of_not_writes (m : Derived.unordered_map K V)
    (ops : List (MapOp K V)) (k : K)
    (h : ∀ op ∈ ops, op.writesKey k = false) :
    Derived.find (applyOps m ops) k = Derived.find m k := by
  induction ops generalizing m with
  | nil => rfl
  | cons op rest ih =>
    have h1 : op.writesKey k = false := h op (List.mem_cons_self _ _)
    have h2 : ∀ o ∈ rest, MapOp.writesKey o k = false :=
      fun o ho => h o (List.mem_cons_of_mem _ ho)
    show Derived.find (applyOps (applyOp m op) rest) k = Derived.find m k
    rw [ih (applyOp m op) h2, find_applyOp_of_not_writes m op k h1]

end Ops

namespace Claims

/-- Claim C1 — insert/find round trip: after the two-argument insert
overloads (`insert_or_assign` semantics, `m[k] = v`), `find(k)` returns
exactly `v`, and it keeps returning `v` across any later sequence of
operations none of which writes to `k` (no later two-argument insert on
`k`, `insert(pair)` with key `k`, `emplace` with key `k`, `erase(k)` or
`clear`). -/
theorem insert_or_assign_find_round_trip {K V : Type} [DecidableEq K]
    (m : Derived.unordered_map K V) (k : K) (v : V)
    (ops : List (Ops.MapOp K V))
    (h : ∀ op ∈ ops, op.writesKey k = false) :
    Derived.find (Derived.insert_copy m k v) k = some v ∧
    Derived.find (Derived.insert_move m k v) k = some v ∧
    Derived.find (Ops.applyOps (Derived.insert_copy m k v) ops) k = some v := by
  have hbase : Derived.find (Derived.insert_copy m k v) k = some v := by
    rw [Derived.find_eq, Derived.insert_copy_entries]
    exact StdMap.lookup_assign_self m.entries k v
  refine ⟨hbase, hbase, ?_⟩
  rw [Ops.find_applyOps_of_not_writes _ _ _ h]
  exact hbase

/-- Witness for C1: insert key 1 with value 5 into `{2: 20}`, then erase 2,
assign 3 and read 1 — none of which writes key 1 — and find 1 still yields
5. -/
theorem insert_or_assign_find_round_trip_witness :
    (∀ op ∈ ([Ops.MapOp.ers 2, Ops.MapOp.ins_assign 3 7,
              Ops.MapOp.fnd 1] : List (Ops.MapOp Nat Nat)),
        op.writesKey 1 = false) ∧
    Derived.find (Ops.applyOps
        (Derived.insert_copy (⟨⟨[(2, 20)]⟩⟩ : Derived.unordered_map Nat Nat) 1 5)
        [Ops.MapOp.ers 2, Ops.MapOp.ins_assign 3 7, Ops.MapOp.fnd 1]) 1 =
      some 5 :=
  ⟨by decide,
   (insert_or_assign_find_round_trip
      (⟨⟨[(2, 20)]⟩⟩ : Derived.unordered_map Nat Nat) 1 5
      [Ops.MapOp.ers 2, Ops.MapOp.ins_assign 3 7, Ops.MapOp.fnd 1]
      (by decide)).2.2⟩

/-- Claim C2 — insert_if_absent (the single-argument pair `insert`): if the
key is absent the entry is appended and `true` is returned; if the key is
present `false` is returned and the map is completely unchanged. -/
theorem insert_if_absent_spec {K V : Type} [DecidableEq K]
    (m : Derived.unordered_map K V) (k : K) (v : V) :
    (Derived.contains m k = false →
        (Derived.insert_pair m (k, v)).2 = true ∧
        (Derived.insert_pair m (k, v)).1.entries = m.entries ++ [(k, v)]) ∧
    (Derived.contains m k = true →
        (Derived.insert_pair m (k, v)).2 = false ∧
        (Derived.insert_pair m (k, v)).1 = m) := by
  constructor
  · intro hc
    rw [Derived.contains_eq] at hc
    refine ⟨?_, ?_⟩
    · rw [Derived.insert_pair_ret]
      simp [StdMap.insertPair, hc]
    · rw [Derived.insert_pair_entries]
      simp [StdMap.insertPair, hc]
  · intro hc
    rw [Derived.contains_eq] at hc
    refine ⟨?_, ?_⟩
    · rw [Derived.insert_pair_ret]
      simp [StdMap.insertPair, hc]
    · apply Derived.unordered_map.eq_of_entries
      rw [Derived.insert_pair_entries]
      simp [StdMap.insertPair, hc]

/-- Witness for C2: inserting absent key 2 into `{1: 10}` returns true;
inserting present key 1 returns false. -/
theorem insert_if_absent_spec_witness :
    (Derived.insert_pair (⟨⟨[(1, 10)]⟩⟩ : Derived.unordered_map Nat Nat)
        (2, 20)).2 = true ∧
    (Derived.insert_pair (⟨⟨[(1, 10)]⟩⟩ : Derived.unordered_map Nat Nat)
        (1, 99)).2 = false :=
  ⟨((insert_if_absent_spec (⟨⟨[(1, 10)]⟩⟩ : Derived.unordered_map Nat Nat)
        2 20).1 (by decide)).1,
   ((insert_if_absent_spec (⟨⟨[(1, 10)]⟩⟩ : Derived.unordered_map Nat Nat)
        1 99).2 (by decide)).1⟩

/-- Claim C3 — emplace non-clobber: `emplace` whose arguments construct a
pair with key `k` inserts and returns true exactly when `k` is absent; on a
present key it returns false and the existing entry (the whole map) is left
unchanged, so `find(k)` still yields the old value. -/
theorem emplace_non_clobber {K V : Type} [DecidableEq K]
    (m : Derived.unordered_map K V) (k : K) (v : V) :
    (Derived.contains m k = false →
        (Derived.emplace m k v).2 = true ∧
        (Derived.emplace m k v).1.entries = m.entries ++ [(k, v)]) ∧
    (Derived.contains m k = true →
        (Derived.emplace m k v).2 = false ∧
        (Derived.emplace m k v).1 = m ∧
        Derived.find (Derived.emplace m k v).1 k = Derived.find m k) := by
  constructor
  · intro hc
    rw [Derived.contains_eq] at hc
    refine ⟨?_, ?_⟩
    · rw [Derived.emplace_ret]
      simp [StdMap.insertPair, hc]
    · rw [Derived.emplace_entries]
      simp [StdMap.insertPair, hc]
  · intro hc
    rw [Derived.contains_eq] at hc
    have hu : (Derived.emplace m k v).1 = m := by
      apply Derived.unordered_map.eq_of_entries
      rw [Derived.emplace_entries]
      simp [StdMap.insertPair, hc]
    refine ⟨?_, hu, by rw [hu]⟩
    rw [Derived.emplace_ret]
    simp [StdMap.insertPair, hc]

/-- Witness for C3 — the concrete scenario of the claim: from
`{1: ("one", 11)}`, `emplace(1, ("one_new", 111))` returns false and
`find(1)` still yields `("one", 11)`. -/
theorem emplace_non_clobber_witness :
    (Derived.emplace
        (⟨⟨[(1, ("one", 11))]⟩⟩ : Derived.unordered_map Nat (String × Nat))
        1 ("one_new", 111)).2 = false ∧
    Derived.find (Derived.emplace
        (⟨⟨[(1, ("one", 11))]⟩⟩ : Derived.unordered_map Nat (String × Nat))
        1 ("one_new", 111)).1 1 = some ("one", 11) := by
  have h := emplace_non_clobber
    (⟨⟨[(1, ("one", 11))]⟩⟩ : Derived.unordered_map Nat (String × Nat))
    1 ("one_new", 111)
  obtain ⟨hret, -, hfind⟩ := h.2 rfl
  refine ⟨hret, ?_⟩
  rw [hfind]
  rfl

/-- Claim C4 — erase semantics and idempotence: `erase(k)` removes the
entry for a present key and returns 1 (leaving other keys untouched),
returns 0 on an absent key leaving the map and `size()` unchanged, and
erasing twice leaves the same final state as erasing once. -/
theorem erase_spec {K V : Type} [DecidableEq K]
    (m : Derived.unordered_map K V) (k : K) (h : StdMap.WF m.entries) :
    (Derived.contains m k = true →
        (Derived.erase m k).2 = 1 ∧
        Derived.find (Derived.erase m k).1 k = none ∧
        (∀ k', k' ≠ k →
            Derived.find (Derived.erase m k).1 k' = Derived.find m k')) ∧
    (Derived.contains m k = false →
        (Derived.erase m k).2 = 0 ∧
        (Derived.erase m k).1 = m ∧
        Derived.size (Derived.erase m k).1 = Derived.size m) ∧
    (Derived.erase (Derived.erase m k).1 k).1 = (Derived.erase m k).1 := by
  refine ⟨?_, ?_, ?_⟩
  · intro hc
    rw [Derived.contains_eq] at hc
    refine ⟨?_, ?_, ?_⟩
    · rw [Derived.erase_ret, StdMap.erase_count, StdMap.countKey_eq_of_wf _ _ h, hc]
      rfl
    · rw [Derived.find_eq, Derived.erase_entries]
      exact StdMap.lookup_erase_self m.entries k
    · intro k' hk'
      rw [Derived.find_eq, Derived.find_eq, Derived.erase_entries]
      exact StdMap.lookup_erase_ne m.entries k k' (fun hh => hk' hh.symm)
  · intro hc
    rw [Derived.contains_eq] at hc
    have he := StdMap.erase_of_not_contains m.entries k hc
    refine ⟨?_, ?_, ?_⟩
    · rw [Derived.erase_ret, he]
    · apply Derived.unordered_map.eq_of_entries
      rw [Derived.erase_entries, he]
    · rw [Derived.size_eq, Derived.size_eq, Derived.erase_entries, he]
  · apply Derived.unordered_map.eq_of_entries
    rw [Derived.erase_entries, Derived.erase_entries]
    exact StdMap.erase_idem m.entries k

/-- Witness for C4: erasing present key 1 from `{1: 10, 2: 20}` returns 1;
erasing absent key 3 returns 0. -/
theorem erase_spec_witness :
    (Derived.erase (⟨⟨[(1, 10), (2, 20)]⟩⟩ : Derived.unordered_map Nat Nat)
        1).2 = 1 ∧
    (Derived.erase (⟨⟨[(1, 10), (2, 20)]⟩⟩ : Derived.unordered_map Nat Nat)
        3).2 = 0 :=
  ⟨((erase_spec (⟨⟨[(1, 10), (2, 20)]⟩⟩ : Derived.unordered_map Nat Nat) 1
      (by decide)).1 (by decide)).1,
   ((erase_spec (⟨⟨[(1, 10), (2, 20)]⟩⟩ : Derived.unordered_map Nat Nat) 3
      (by decide)).2.1 (by decide)).1⟩

/-- Claim C5 — snapshot isolation: `snapshot()` returns exactly the map's
entries, one pair per key, with length equal to `size()`; the sequence is a
point-in-time copy, so a later insertion produces a new snapshot extending
the old one while the previously captured sequence is exactly the old
contents. -/
theorem snapshot_isolation {K V : Type} [DecidableEq K]
    (m : Derived.unordered_map K V) (h : StdMap.WF m.entries) :
    (Derived.snapshot m).length = Derived.size m ∧
    ((Derived.snapshot m).map Prod.fst).Nodup ∧
    (∀ k, StdMap.lookup (Derived.snapshot m) k = Derived.find m k) ∧
    (∀ k v, Derived.contains m k = false →
        Derived.snapshot (Derived.insert_copy m k v) =
          Derived.snapshot m ++ [(k, v)]) := by
  refine ⟨?_, ?_, ?_, ?_⟩
  · rw [Derived.snapshot_eq, Derived.size_eq]
  · rw [Derived.snapshot_eq]
    exact h
  · intro k
    rw [Derived.snapshot_eq, Derived.find_eq]
  · intro k v hc
    rw [Derived.contains_eq] at hc
    rw [Derived.snapshot_eq, Derived.snapshot_eq, Derived.insert_copy_entries]
    exact StdMap.assign_of_not_contains m.entries k v hc

/-- Witness for C5 — the concrete scenario of the claim: the snapshot of
`{1:"one", 2:"two", 3:"three"}` has exactly 3 pairs (the map's contents),
and inserting `4:"four"` yields a new snapshot extending it, the captured
sequence being unchanged. -/
theorem snapshot_isolation_witness :
    (Derived.snapshot (⟨⟨[(1, "one"), (2, "two"), (3, "three")]⟩⟩ :
        Derived.unordered_map Nat String)).length =
      Derived.size (⟨⟨[(1, "one"), (2, "two"), (3, "three")]⟩⟩ :
        Derived.unordered_map Nat String) ∧
    Derived.snapshot (Derived.insert_copy
        (⟨⟨[(1, "one"), (2, "two"), (3, "three")]⟩⟩ :
          Derived.unordered_map Nat String) 4 "four") =
      Derived.snapshot (⟨⟨[(1, "one"), (2, "two"), (3, "three")]⟩⟩ :
        Derived.unordered_map Nat String) ++ [(4, "four")] :=
  ⟨(snapshot_isolation (⟨⟨[(1, "one"), (2, "two"), (3, "three")]⟩⟩ :
      Derived.unordered_map Nat String) (by decide)).1,
   (snapshot_isolation (⟨⟨[(1, "one"), (2, "two"), (3, "three")]⟩⟩ :
      Derived.unordered_map Nat String) (by decide)).2.2.2 4 "four" (by decide)⟩

/-- Claim C6 — absence is a normal empty result: `find(k)` is a total
function into an optional; it returns exactly the stored value when the key
is present and the empty optional when absent (its fullness coincides with
`contains`), with no other error channel. -/
theorem find_absence_normal {K V : Type} [DecidableEq K]
    (m : Derived.unordered_map K V) (k : K) :
    Derived.find m k = StdMap.lookup m.entries k ∧
    (Derived.find m k).isSome = Derived.contains m k := by
  refine ⟨rfl, ?_⟩
  rw [Derived.find_eq, Derived.contains_eq,
    StdMap.containsKey_eq_isSome_lookup]

/-- Claim C7 — query agreement: `count(k)` is 0 or 1; it is 1 exactly when
`find(k)` returns a value; `contains(k)` is true exactly when `count(k)` is
1; `is_empty()` is true exactly when `size()` is 0. -/
theorem query_agreement {K V : Type} [DecidableEq K]
    (m : Derived.unordered_map K V) (k : K) (h : StdMap.WF m.entries) :
    (Derived.count m k = 0 ∨ Derived.count m k = 1) ∧
    (Derived.count m k = 1 ↔ (Derived.find m k).isSome = true) ∧
    (Derived.contains m k = true ↔ Derived.count m k = 1) ∧
    (Derived.empty m = true ↔ Derived.size m = 0) := by
  have hcount : Derived.count m k =
      if StdMap.containsKey m.entries k then 1 else 0 := by
    rw [Derived.count_eq]
    exact StdMap.countKey_eq_of_wf _ _ h
  have hfind : (Derived.find m k).isSome = StdMap.containsKey m.entries k := by
    rw [Derived.find_eq, StdMap.containsKey_eq_isSome_lookup]
  refine ⟨?_, ?_, ?_, ?_⟩
  · rw [hcount]
    split
    · right; rfl
    · left; rfl
  · rw [hcount, hfind]
    split <;> simp_all
  · rw [hcount, Derived.contains_eq]
    split <;> simp_all
  · rw [Derived.empty_eq, Derived.size_eq]
    cases m.entries <;> simp

/-- Witness for C7 on the one-entry map `{1: 10}`. -/
theorem query_agreement_witness :
    (Derived.count (⟨⟨[(1, 10)]⟩⟩ : Derived.unordered_map Nat Nat) 1 = 0 ∨
      Derived.count (⟨⟨[(1, 10)]⟩⟩ : Derived.unordered_map Nat Nat) 1 = 1) ∧
    (Derived.empty (⟨⟨[(1, 10)]⟩⟩ : Derived.unordered_map Nat Nat) = true ↔
      Derived.size (⟨⟨[(1, 10)]⟩⟩ : Derived.unordered_map Nat Nat) = 0) :=
  ⟨(query_agreement (⟨⟨[(1, 10)]⟩⟩ : Derived.unordered_map Nat Nat) 1
      (by decide)).1,
   (query_agreement (⟨⟨[(1, 10)]⟩⟩ : Derived.unordered_map Nat Nat) 1
      (by decide)).2.2.2⟩

/-- Claim C8 — mutual exclusion / serializability: in the fine-grained
interleaved semantics of threads acquiring the reader-writer lock, an
exclusive operation of any kind — two-argument insert, pair insert,
emplace, erase, clear, or an arbitrary `execute_exclusive` callback — is
two non-atomic micro-steps (a read phase computing its outcome from the
observed state, and a write phase installing it).  Every trace the lock
admits yields a final map state equal to the serial one-at-a-time
execution of the committed exclusive operations in a single total order
(the commit log, one entry per commit in trace order): no lost updates and
no torn writes, with shared reads fully serialized against exclusive
critical sections by the lock. -/
theorem mutual_exclusion_serializable {K V : Type} [DecidableEq K]
    (m₀ : List (K × V)) (es : List (Conc.Event K V)) (s' : Conc.Sys K V)
    (h : Conc.run (Conc.init m₀) es = some s') :
    s'.map = Conc.serialRun m₀ s'.log ∧
    s'.log.length = Conc.commitCount es := by
  have hInv : Conc.Inv (Conc.init m₀) := by
    intro t op mw hp
    simp [Conc.init] at hp
  have hres := Conc.run_serializes hInv rfl h
  simpa [Conc.init] using hres

/-- Witness for C8: five threads take the exclusive lock in turn for five
different kinds of exclusive operation on key space `{1, 2, 3}` — a
two-argument insert, a colliding pair insert, an erase, an emplace and an
`execute_exclusive` callback — with a shared-lock read interleaved; the
trace runs to completion and its final map equals the serial execution of
the commit log, whose length is the number of commits. -/
theorem mutual_exclusion_serializable_witness :
    Conc.run (Conc.init ([] : List (Nat × Nat)))
      [Conc.Event.acqX 1, Conc.Event.obs 1 (Conc.WOp.ins_assign 1 10),
       Conc.Event.commit 1, Conc.Event.relX 1,
       Conc.Event.acqS 7, Conc.Event.readK 7 1, Conc.Event.relS 7,
       Conc.Event.acqX 2, Conc.Event.obs 2 (Conc.WOp.ins_pair 1 99),
       Conc.Event.commit 2, Conc.Event.relX 2,
       Conc.Event.acqX 3, Conc.Event.obs 3 (Conc.WOp.ers 1),
       Conc.Event.commit 3, Conc.Event.relX 3,
       Conc.Event.acqX 4, Conc.Event.obs 4 (Conc.WOp.empl 2 20),
       Conc.Event.commit 4, Conc.Event.relX 4,
       Conc.Event.acqX 5,
       Conc.Event.obs 5 (Conc.WOp.exec (fun mm => mm ++ [(3, 30)])),
       Conc.Event.commit 5, Conc.Event.relX 5] =
      some { lock := Conc.LockSt.free, map := [(2, 20), (3, 30)],
             pend := none,
             log := [Conc.WOp.ins_assign 1 10, Conc.WOp.ins_pair 1 99,
                     Conc.WOp.ers 1, Conc.WOp.empl 2 20,
                     Conc.WOp.exec (fun mm => mm ++ [(3, 30)])],
             reads := [(7, 1, some 10)] } ∧
    ([(2, 20), (3, 30)] : List (Nat × Nat)) =
      Conc.serialRun []
        [Conc.WOp.ins_assign 1 10, Conc.WOp.ins_pair 1 99,
         Conc.WOp.ers 1, Conc.WOp.empl 2 20,
         Conc.WOp.exec (fun mm => mm ++ [(3, 30)])] ∧
    ([Conc.WOp.ins_assign 1 10, Conc.WOp.ins_pair 1 99,
      Conc.WOp.ers 1, Conc.WOp.empl 2 20,
      Conc.WOp.exec (fun mm => mm ++ [(3, 30)])] :
        List (Conc.WOp Nat Nat)).length =
      Conc.commitCount
        [Conc.Event.acqX 1, Conc.Event.obs 1 (Conc.WOp.ins_assign 1 10),
         Conc.Event.commit 1, Conc.Event.relX 1,
         Conc.Event.acqS 7, Conc.Event.readK 7 1, Conc.Event.relS 7,
         Conc.Event.acqX 2, Conc.Event.obs 2 (Conc.WOp.ins_pair 1 99),
         Conc.Event.commit 2, Conc.Event.relX 2,
         Conc.Event.acqX 3, Conc.Event.obs 3 (Conc.WOp.ers 1),
         Conc.Event.commit 3, Conc.Event.relX 3,
         Conc.Event.acqX 4, Conc.Event.obs 4 (Conc.WOp.empl 2 20),
         Conc.Event.commit 4, Conc.Event.relX 4,
         Conc.Event.acqX 5,
         Conc.Event.obs 5 (Conc.WOp.exec (fun mm => mm ++ [(3, 30)])),
         Conc.Event.commit 5, Conc.Event.relX 5] :=
  ⟨rfl,
   mutual_exclusion_serializable []
     [Conc.Event.acqX 1, Conc.Event.obs 1 (Conc.WOp.ins_assign 1 10),
      Conc.Event.commit 1, Conc.Event.relX 1,
      Conc.Event.acqS 7, Conc.Event.readK 7 1, Conc.Event.relS 7,
      Conc.Event.acqX 2, Conc.Event.obs 2 (Conc.WOp.ins_pair 1 99),
      Conc.Event.commit 2, Conc.Event.relX 2,
      Conc.Event.acqX 3, Conc.Event.obs 3 (Conc.WOp.ers 1),
      Conc.Event.commit 3, Conc.Event.relX 3,
      Conc.Event.acqX 4, Conc.Event.obs 4 (Conc.WOp.empl 2 20),
      Conc.Event.commit 4, Conc.Event.relX 4,
      Conc.Event.acqX 5,
      Conc.Event.obs 5 (Conc.WOp.exec (fun mm => mm ++ [(3, 30)])),
      Conc.Event.commit 5, Conc.Event.relX 5]
     { lock := Conc.LockSt.free, map := [(2, 20), (3, 30)],
       pend := none,
       log := [Conc.WOp.ins_assign 1 10, Conc.WOp.ins_pair 1 99,
               Conc.WOp.ers 1, Conc.WOp.empl 2 20,
               Conc.WOp.exec (fun mm => mm ++ [(3, 30)])],
       reads := [(7, 1, some 10)] }
     rfl⟩

/-- Claim C9 — the two implementations of `concurrent::unordered_map` (the
`container_base`-derived one and the standalone one) are observationally
equivalent: on equal map contents every public operation returns equal
results and leaves equal contents. -/
theorem implementations_equivalent {K V : Type} [DecidableEq K]
    (d : Derived.unordered_map K V) (s : Standalone.unordered_map K V)
    (hds : d.entries = s._internal_map) :
    (∀ p, (Derived.insert_pair d p).1.entries =
            (Standalone.insert_pair s p).1._internal_map ∧
          (Derived.insert_pair d p).2 = (Standalone.insert_pair s p).2) ∧
    (∀ k v, (Derived.insert_copy d k v).entries =
              (Standalone.insert_copy s k v)._internal_map) ∧
    (∀ k v, (Derived.insert_move d k v).entries =
              (Standalone.insert_move s k v)._internal_map) ∧
    (∀ k, Derived.find d k = Standalone.find s k) ∧
    (∀ k v, (Derived.emplace d k v).1.entries =
              (Standalone.emplace s k v).1._internal_map ∧
            (Derived.emplace d k v).2 = (Standalone.emplace s k v).2) ∧
    (∀ k, (Derived.erase d k).1.entries =
            (Standalone.erase s k).1._internal_map ∧
          (Derived.erase d k).2 = (Standalone.erase s k).2) ∧
    (Derived.clear d).entries = (Standalone.clear s)._internal_map ∧
    Derived.size d = Standalone.size s ∧
    Derived.empty d = Standalone.empty s ∧
    (∀ k, Derived.count d k = Standalone.count s k) ∧
    (∀ k, Derived.contains d k = Standalone.contains s k) ∧
    Derived.snapshot d = Standalone.snapshot s ∧
    (∀ (α : Type) (f : List (K × V) → α),
        Derived.execute_shared d f = Standalone.execute_shared s f) ∧
    (∀ (α : Type) (f : List (K × V) → List (K × V) × α),
        (Derived.execute_exclusive d f).1.entries =
          (Standalone.execute_exclusive s f).1._internal_map ∧
        (Derived.execute_exclusive d f).2 =
          (Standalone.execute_exclusive s f).2) := by
  obtain ⟨⟨c⟩⟩ := d
  obtain ⟨c'⟩ := s
  have hc : c = c' := hds
  subst hc
  exact ⟨fun p => ⟨rfl, rfl⟩, fun k v => rfl, fun k v => rfl, fun k => rfl,
    fun k v => ⟨rfl, rfl⟩, fun k => ⟨rfl, rfl⟩, rfl, rfl, rfl, fun k => rfl,
    fun k => rfl, rfl, fun α f => rfl, fun α f => ⟨rfl, rfl⟩⟩

/-- Witness for C9 on the contents `[(1, 2)]`: `find` agrees between the
two implementations. -/
theorem implementations_equivalent_witness :
    Derived.find (⟨⟨[(1, 2)]⟩⟩ : Derived.unordered_map Nat Nat) 1 =
      Standalone.find (⟨[(1, 2)]⟩ : Standalone.unordered_map Nat Nat) 1 :=
  (implementations_equivalent
    (⟨⟨[(1, 2)]⟩⟩ : Derived.unordered_map Nat Nat)
    (⟨[(1, 2)]⟩ : Standalone.unordered_map Nat Nat) rfl).2.2.2.1 1

/-- Claim C10 — size-delta discipline: `insert(pair)` and `emplace` grow
`size()` by exactly 1 when they return true and leave it unchanged when
they return false; `erase` shrinks `size()` by exactly its return value
(which is 0 or 1); the two-argument insert grows `size()` by 1 on an absent
key and leaves it unchanged on a present one. -/
theorem size_delta_discipline {K V : Type} [DecidableEq K]
    (m : Derived.unordered_map K V) (k : K) (v : V)
    (h : StdMap.WF m.entries) :
    ((Derived.insert_pair m (k, v)).2 = true →
        Derived.size (Derived.insert_pair m (k, v)).1 = Derived.size m + 1) ∧
    ((Derived.insert_pair m (k, v)).2 = false →
        Derived.size (Derived.insert_pair m (k, v)).1 = Derived.size m) ∧
    ((Derived.emplace m k v).2 = true →
        Derived.size (Derived.emplace m k v).1 = Derived.size m + 1) ∧
    ((Derived.emplace m k v).2 = false →
        Derived.size (Derived.emplace m k v).1 = Derived.size m) ∧
    Derived.size (Derived.erase m k).1 + (Derived.erase m k).2 =
      Derived.size m ∧
    ((Derived.erase m k).2 = 0 ∨ (Derived.erase m k).2 = 1) ∧
    (Derived.contains m k = false →
        Derived.size (Derived.insert_copy m k v) = Derived.size m + 1) ∧
    (Derived.contains m k = true →
        Derived.size (Derived.insert_copy m k v) = Derived.size m) := by
  have hip : ∀ hc : StdMap.containsKey m.entries k = false,
      Derived.size (Derived.insert_pair m (k, v)).1 = Derived.size m + 1 := by
    intro hc
    rw [Derived.size_eq, Derived.size_eq, Derived.insert_pair_entries,
      StdMap.insertPair_length]
    simp [hc]
  refine ⟨?_, ?_, ?_, ?_, ?_, ?_, ?_, ?_⟩
  · intro hr
    rw [Derived.insert_pair_ret, StdMap.insertPair_ret_eq] at hr
    exact hip (by simpa using hr)
  · intro hr
    rw [Derived.insert_pair_ret, StdMap.insertPair_ret_eq] at hr
    have hc : StdMap.containsKey m.entries k = true := by simpa using hr
    rw [Derived.size_eq, Derived.size_eq, Derived.insert_pair_entries,
      StdMap.insertPair_length]
    simp [hc]
  · intro hr
    rw [Derived.emplace_ret, StdMap.insertPair_ret_eq] at hr
    have hc : StdMap.containsKey m.entries k = false := by simpa using hr
    rw [Derived.size_eq, Derived.size_eq, Derived.emplace_entries,
      StdMap.insertPair_length]
    simp [hc]
  · intro hr
    rw [Derived.emplace_ret, StdMap.insertPair_ret_eq] at hr
    have hc : StdMap.containsKey m.entries k = true := by simpa using hr
    rw [Derived.size_eq, Derived.size_eq, Derived.emplace_entries,
      StdMap.insertPair_length]
    simp [hc]
  · rw [Derived.size_eq, Derived.size_eq, Derived.erase_entries,
      Derived.erase_ret]
    exact StdMap.erase_length m.entries k
  · have hle : (Derived.erase m k).2 ≤ 1 := by
      rw [Derived.erase_ret, StdMap.erase_count]
      exact StdMap.countKey_le_one_of_wf m.entries k h
    omega
  · intro hc
    rw [Derived.contains_eq] at hc
    rw [Derived.size_eq, Derived.size_eq, Derived.insert_copy_entries,
      StdMap.assign_length]
    simp [hc]
  · intro hc
    rw [Derived.contains_eq] at hc
    rw [Derived.size_eq, Derived.size_eq, Derived.insert_copy_entries,
      StdMap.assign_length]
    simp [hc]

/-- Witness for C10 on `{1: 10}`: inserting absent key 2 returns true and
the size grows from 1 to 2; erasing key 1 returns 1 and the size shrinks
back accordingly. -/
theorem size_delta_discipline_witness :
    ((Derived.insert_pair (⟨⟨[(1, 10)]⟩⟩ : Derived.unordered_map Nat Nat)
        (2, 20)).2 = true →
      Derived.size (Derived.insert_pair
          (⟨⟨[(1, 10)]⟩⟩ : Derived.unordered_map Nat Nat) (2, 20)).1 =
        Derived.size (⟨⟨[(1, 10)]⟩⟩ : Derived.unordered_map Nat Nat) + 1) ∧
    Derived.size (Derived.erase
        (⟨⟨[(1, 10)]⟩⟩ : Derived.unordered_map Nat Nat) 1).1 +
      (Derived.erase (⟨⟨[(1, 10)]⟩⟩ : Derived.unordered_map Nat Nat) 1).2 =
      Derived.size (⟨⟨[(1, 10)]⟩⟩ : Derived.unordered_map Nat Nat) :=
  ⟨(size_delta_discipline (⟨⟨[(1, 10)]⟩⟩ : Derived.unordered_map Nat Nat)
      2 20 (by decide)).1,
   (size_delta_discipline (⟨⟨[(1, 10)]⟩⟩ : Derived.unordered_map Nat Nat)
      1 10 (by decide)).2.2.2.2.1⟩

end Claims

end ConcurrentSTL
